import Mathlib

/-!
# pngpeek: the embedding/extraction codec of `src/pngpeek.c`

A shallow embedding of the codec core and the properties proved about it.

Conventions of the embedding.

* The pixel buffer `imData` and the message `inMsg` are lists of bytes held as
  `Nat`; `imSize` and `inSize` are their lengths, and the sum
  `PNGPEEK_HEADER_SIZE + inSize * 4` of the capacity check is taken not to
  overflow the 64-bit `size_t`.  A pointer into the buffer (`imData + k`) is
  the offset `k`.
* `uint8_t` and `uint32_t` arithmetic is written with an explicit `% 256` and
  `% 2 ^ 32`; the two loop indices `p_index` and `d_index` are `uint32_t` in
  the source and wrap here as they do there.
* The process-wide keystream word `__pngpeek_state` is passed in and returned.
* `exit(EXIT_FAILURE)` is the outcome `Outcome.exit`; the `while` loops run on
  fuel, and `Outcome.running` is a loop that has not finished within it.
* A read outside the buffer, undefined in C, yields `0`, and a write outside it
  is dropped; `calloc` is taken to succeed.
* The shifted header bytes of the decoder are `int` values: a byte of 128 or
  more shifted by 24 is negative and is sign-extended when added to the 64-bit
  `size_t`.
* `printf` output is not modelled.
* Statements about a whole run take a buffer of fewer than `2 ^ 32` bytes: the
  size `main.c` passes is the `uint32_t` product `4 * width * height`, and it
  is the range in which the 32-bit index `p_index` does not wrap.
-/

namespace Pngpeek

/-! ## Constants and the keystream generator -/

/-- Size in bytes of the header: `#define PNGPEEK_HEADER_SIZE 32`. -/
def PNGPEEK_HEADER_SIZE : Nat := 32

/-- Extra seed offset: `#define CRC_SEED_SHIFT 0`. -/
def CRC_SEED_SHIFT : Nat := 0

/-- The word `pngpeek_seed` stores into `__pngpeek_state`. -/
def pngpeek_seed (seed : Nat) : Nat := seed % 2 ^ 32

/-- One call of `pngpeek_randomu8` on state `state`: the new state and the
byte returned. -/
def pngpeek_randomu8 (state : Nat) : Nat × Nat :=
  let x := state
  let x := (x ^^^ (x <<< 13)) % 2 ^ 32
  let x := x ^^^ (x >>> 17)
  let x := (x ^^^ (x <<< 5)) % 2 ^ 32
  (x, x % 256)

/-! ## The pixel field codec -/

/-- Bit offset of channel `c` when `cS` is the two-bit channel; `bitIndex`
stays `0` when no `case` matches. -/
def pngpeek_getP (cS c : Nat) : Nat :=
  match cS, c with
  | 0, 0 => 6
  | 0, 1 => 3
  | 0, 2 => 0
  | 1, 0 => 3
  | 1, 1 => 6
  | 1, 2 => 0
  | 2, 0 => 0
  | 2, 1 => 5
  | 2, 2 => 3
  | _, _ => 0

/-- The array `components` that `pngpeek_readPixel` and `pngpeek_writePixel`
both compute from the control byte; the third entry is an `int` difference
stored into a `uint8_t`. -/
def components (rByte : Nat) : List Nat :=
  let c0 := (rByte >>> 3) % 3
  let c1 := (c0 + (rByte >>> 2 &&& 1) + 1) % 3
  let c2 := (((3 : Int) - (c0 : Int) - (c1 : Int)) % 256).toNat
  [c0, c1, c2]

/-- Unpack one byte from the pixel at offset `pixelPtr` of `imData`. -/
def pngpeek_readPixel (imData : List Nat) (pixelPtr rByte : Nat) : Nat :=
  let specialComponent := rByte % 3
  [0, 1, 2].foldl (fun outByte i =>
    let component := (components rByte).getD (2 - i) 0
    let pixelValue := imData.getD (pixelPtr + component) 0 &&& 7
    let bitIndex := pngpeek_getP specialComponent component
    (outByte + (pixelValue <<< bitIndex)) % 256) 0

/-- Pack `mByte` into the pixel at offset `pixelPtr` of `imData`. -/
def pngpeek_writePixel (imData : List Nat) (pixelPtr mByte rByte : Nat) : List Nat :=
  let specialComponent := rByte % 3
  [0, 1, 2].foldl (fun im i =>
    let component := (components rByte).getD (2 - i) 0
    let bitIndex := pngpeek_getP specialComponent component
    let val := (mByte >>> bitIndex) &&& (if specialComponent = component then 3 else 7)
    let im := im.set (pixelPtr + component) (im.getD (pixelPtr + component) 0 &&& 248)
    im.set (pixelPtr + component) ((im.getD (pixelPtr + component) 0 + val) % 256)) imData

/-! ## The checksum -/

/-- One bit of the CRC-32 shift register (reflected polynomial `0xEDB88320`). -/
def crc32Bit (c : Nat) : Nat :=
  if c % 2 = 1 then (c >>> 1) ^^^ 0xEDB88320 else c >>> 1

/-- Feed one byte to the CRC-32 register. -/
def crc32Byte (c b : Nat) : Nat :=
  crc32Bit (crc32Bit (crc32Bit (crc32Bit (crc32Bit (crc32Bit (crc32Bit (crc32Bit (c ^^^ b))))))))

/-- Modelled from the spec: `lodepng_crc32` of `lib/lodepng.c`, which is not among the
sources.  The spec names it the standard CRC-32 of PNG and zlib: register
preset to all ones, bytes fed in order, result complemented. -/
def lodepng_crc32 (data : List Nat) (length : Nat) : Nat :=
  ((data.take length).foldl crc32Byte 0xFFFFFFFF) ^^^ 0xFFFFFFFF

/-! ## The stream codec -/

/-- The three ways the codec ends the process, after the message it prints. -/
inductive PngpeekError where
  /-- "Not enough space in image to hide data!" (`CapacityExceeded`). -/
  | CapacityExceeded
  /-- "Image is impossibly small!" (`BufferTooSmall`). -/
  | BufferTooSmall
  /-- "CRC lookup failed; not pngpeek encoded!" (`ChecksumMismatch`). -/
  | ChecksumMismatch
  deriving DecidableEq, Repr

/-- How a call ends: it returns, it exits the process, or its loop is still
running when the fuel is spent. -/
inductive Outcome (α : Type) where
  | done (a : α)
  | exit (e : PngpeekError)
  | running
  deriving DecidableEq, Repr

/-- What `pngpeek_encodeImage` leaves behind: the keystream word and the buffer. -/
structure Encoded where
  state : Nat
  imData : List Nat
  deriving DecidableEq, Repr

/-- What `pngpeek_decodeImage` leaves behind: the keystream word, the buffer,
and the two out-parameters. -/
structure Decoded where
  state : Nat
  imData : List Nat
  outMsg : List Nat
  outSize : Nat
  deriving DecidableEq, Repr

/-- The four statements `imData[k] &= 0b11111000` for `k = 0 .. 3`. -/
def clearPixel0 (imData : List Nat) : List Nat :=
  let imData := imData.set 0 (imData.getD 0 0 &&& 248)
  let imData := imData.set 1 (imData.getD 1 0 &&& 248)
  let imData := imData.set 2 (imData.getD 2 0 &&& 248)
  imData.set 3 (imData.getD 3 0 &&& 248)

/-- The `for` loop of `pngpeek_encodeImage` that writes the checksum and the
message size into pixels 0 to 7. -/
def writeHeader (imData : List Nat) (crcCode inSize : Nat) : List Nat :=
  [0, 1, 2, 3].foldl (fun im i =>
    let im := pngpeek_writePixel im (i * 4) ((crcCode >>> (8 * i)) &&& 0xFF) 0
    pngpeek_writePixel im (16 + i * 4) ((inSize >>> (8 * i)) &&& 0xFF) 0) imData

/-- The `while` loop of `pngpeek_encodeImage`. -/
def encodeLoop (imSize : Nat) (inMsg : List Nat) :
    Nat → Nat → List Nat → Nat → Nat → Outcome Encoded
  | 0, _, _, _, _ => Outcome.running
  | fuel + 1, state, imData, p_index, d_index =>
    if p_index < imSize ∧ d_index < inMsg.length then
      let mByte := inMsg.getD d_index 0
      let r := pngpeek_randomu8 state
      let imData := pngpeek_writePixel imData p_index mByte r.2
      encodeLoop imSize inMsg fuel r.1 imData ((p_index + 4) % 2 ^ 32) ((d_index + 1) % 2 ^ 32)
    else
      Outcome.done ⟨state, imData⟩

/-- The function `pngpeek_encodeImage`, started with keystream word `state`. -/
def pngpeek_encodeImage (fuel state : Nat) (imData inMsg : List Nat) : Outcome Encoded :=
  let imSize := imData.length
  let inSize := inMsg.length
  if imSize < PNGPEEK_HEADER_SIZE + inSize * 4 then
    Outcome.exit PngpeekError.CapacityExceeded
  else
    let p_index := PNGPEEK_HEADER_SIZE
    let d_index := 0
    let imData := clearPixel0 imData
    let crcCode := lodepng_crc32 imData 4 % 2 ^ 32
    let state := pngpeek_seed (crcCode + CRC_SEED_SHIFT)
    let imData := writeHeader imData crcCode inSize
    encodeLoop imSize inMsg fuel state imData p_index d_index

/-- The `int` held by a 32-bit register whose mathematical value is `v`. -/
def wrapInt32 (v : Int) : Int := (v + 2 ^ 31) % 2 ^ 32 - 2 ^ 31

/-- Conversion of an `int` to the 64-bit `size_t`. -/
def intToSizeT (v : Int) : Nat := (v % 2 ^ 64).toNat

/-- The `for` loop of `pngpeek_decodeImage` that reads `crcCode` and `inSize`
from pixels 0 to 7; the shifted byte is an `int`. -/
def readHeader (imData : List Nat) : Nat × Nat :=
  [0, 1, 2, 3].foldl (fun acc i =>
    let crcTerm := wrapInt32 ((pngpeek_readPixel imData (i * 4) 0 <<< (i * 8) : Nat) : Int)
    let sizeTerm := wrapInt32 ((pngpeek_readPixel imData (16 + i * 4) 0 <<< (i * 8) : Nat) : Int)
    ((((acc.1 : Int) + crcTerm) % 2 ^ 32).toNat, (acc.2 + intToSizeT sizeTerm) % 2 ^ 64)) (0, 0)

/-- The `while` loop of `pngpeek_decodeImage`. -/
def decodeLoop (imData : List Nat) (inSize : Nat) :
    Nat → Nat → List Nat → Nat → Nat → Outcome Decoded
  | 0, _, _, _, _ => Outcome.running
  | fuel + 1, state, outMsg, p_index, d_index =>
    if p_index < imData.length ∧ d_index < inSize then
      let r := pngpeek_randomu8 state
      let outByte := pngpeek_readPixel imData p_index r.2
      let outMsg := outMsg.set d_index outByte
      decodeLoop imData inSize fuel r.1 outMsg ((p_index + 4) % 2 ^ 32) ((d_index + 1) % 2 ^ 32)
    else
      Outcome.done ⟨state, imData, outMsg, inSize⟩

/-- The function `pngpeek_decodeImage`, started with keystream word `state`;
`calloc` is taken to succeed. -/
def pngpeek_decodeImage (fuel state : Nat) (imData : List Nat) : Outcome Decoded :=
  let imSize := imData.length
  if imSize < PNGPEEK_HEADER_SIZE then
    Outcome.exit PngpeekError.BufferTooSmall
  else
    let hdr := readHeader imData
    let crcCode := hdr.1
    let inSize := hdr.2
    let state := pngpeek_seed (crcCode + CRC_SEED_SHIFT)
    let imData := clearPixel0 imData
    if lodepng_crc32 imData 4 % 2 ^ 32 ≠ crcCode then
      Outcome.exit PngpeekError.ChecksumMismatch
    else
      let outMsg := List.replicate inSize 0
      let p_index := PNGPEEK_HEADER_SIZE
      let d_index := 0
      decodeLoop imData inSize fuel state outMsg p_index d_index

/-! ## Auxiliary definitions used to state and prove the properties -/

/-- The byte a channel holds after `val` is packed into it. -/
def packChannel (x val : Nat) : Nat := ((x &&& 248) + val) % 256

/-- One round of the write loop on buffer position `i`. -/
def storeChannel (im : List Nat) (i val : Nat) : List Nat :=
  im.set i (packChannel (im.getD i 0) val)

/-- The field of `mByte` that channel `c` receives. -/
def fieldOf (cS c mByte : Nat) : Nat :=
  (mByte >>> pngpeek_getP cS c) &&& (if cS = c then 3 else 7)

/-- The keystream word after `k` calls of `pngpeek_randomu8` from `state`. -/
def stateAfter : Nat → Nat → Nat
  | 0, state => state
  | k + 1, state => stateAfter k (pngpeek_randomu8 state).1

/-- The body of the encoder's `while` loop run `j` times from message index `k`. -/
def encodeSteps (inMsg : List Nat) : Nat → Nat → List Nat → Nat → Encoded
  | 0, state, imData, _ => ⟨state, imData⟩
  | j + 1, state, imData, k =>
    encodeSteps inMsg j (pngpeek_randomu8 state).1
      (pngpeek_writePixel imData (32 + 4 * k) (inMsg.getD k 0) (pngpeek_randomu8 state).2) (k + 1)

/-- The size a header declares: the four bytes of pixels 4 to 7, the top one
sign-extended as the `int` shift of the source does. -/
def declaredSize (b4 b5 b6 b7 : Nat) : Nat :=
  if b7 < 128 then b4 + b5 * 2 ^ 8 + b6 * 2 ^ 16 + b7 * 2 ^ 24
  else b4 + b5 * 2 ^ 8 + b6 * 2 ^ 16 + b7 * 2 ^ 24 + (2 ^ 64 - 2 ^ 32)

/-- The checksum both directions compute: CRC-32 of pixel 0 with the low three
bits of each byte cleared, as a `uint32_t`. -/
def headerCrc (imData : List Nat) : Nat := lodepng_crc32 (clearPixel0 imData) 4 % 2 ^ 32

/-- The buffer `pngpeek_encodeImage` produces once the capacity check has passed. -/
def encodedBuffer (imData inMsg : List Nat) : List Nat :=
  (encodeSteps inMsg inMsg.length (pngpeek_seed (headerCrc imData + CRC_SEED_SHIFT))
    (writeHeader (clearPixel0 imData) (headerCrc imData) inMsg.length) 0).imData

/-- The checksum register after four bytes, from preset `c`. -/
def crcReg (c x0 x1 x2 x3 : Nat) : Nat :=
  crc32Byte (crc32Byte (crc32Byte (crc32Byte c x0) x1) x2) x3

/-- A 36-byte buffer (9 pixels) whose header carries the checksum of its pixel 0
and declares a payload of 2 bytes, one more than its single payload pixel holds. -/
def shortCarrier : List Nat :=
  [0, 3, 4, 0, 3, 3, 7, 0, 1, 0, 4, 0, 0, 4, 1, 0, 0, 0, 2, 0, 0, 0, 0, 0, 0, 0, 0, 0, 0, 0,
   0, 0, 0, 1, 2, 0]

/-- The 64-byte buffer `pngpeek_encodeImage` makes of 16 zero pixels and the payload `[0x42]`. -/
def encodedCarrier : List Nat :=
  [0, 3, 4, 0, 3, 3, 7, 0, 1, 0, 4, 0, 0, 4, 1, 0, 0, 0, 1, 0, 0, 0, 0, 0, 0, 0, 0, 0, 0, 0,
   0, 0, 0, 1, 2, 0, 0, 0, 0, 0, 0, 0, 0, 0, 0, 0, 0, 0, 0, 0, 0, 0, 0, 0, 0, 0, 0, 0, 0, 0,
   0, 0, 0, 0]

/-- How many of the 256 control bytes give the channel order `perm`. -/
def permCount (perm : List Nat) : Nat :=
  ((List.range 256).filter (fun r => components r = perm)).length

/-- The channel whose field starts at bit 0 when `cS` is the two-bit channel. -/
def lowChannel (cS : Nat) : Nat := if cS = 2 then 0 else 2

/-- The channel whose field ends at bit 7 when `cS` is the two-bit channel. -/
def highChannel (cS : Nat) : Nat := if cS = 0 then 0 else 1

theorem and248_mod (x : Nat) : x &&& 248 = (x % 256) &&& 248 := by
  have h : x % 256 = x &&& 255 := (Nat.and_pow_two_sub_one_eq_mod x 8).symm
  rw [h, Nat.and_assoc]
  rfl

theorem storeChannel_length (im : List Nat) (i v : Nat) :
    (storeChannel im i v).length = im.length := by
  simp [storeChannel]

theorem storeChannel_getD (im : List Nat) (i v j : Nat) :
    (storeChannel im i v).getD j 0 =
      if j = i ∧ j < im.length then packChannel (im.getD j 0) v else im.getD j 0 := by
  unfold storeChannel
  by_cases h : j = i
  · subst h
    by_cases hl : j < im.length
    · simp [List.getD_eq_getElem?_getD, List.getElem?_set, hl]
    · simp [List.getD_eq_getElem?_getD, List.getElem?_set, hl,
        List.getElem?_eq_none (Nat.le_of_not_lt hl)]
  · simp [List.getD_eq_getElem?_getD, List.getElem?_set, h, Ne.symm h]

theorem store_twice (im : List Nat) (i v : Nat) :
    (im.set i (im.getD i 0 &&& 248)).set i
      ((((im.set i (im.getD i 0 &&& 248)).getD i 0) + v) % 256) = storeChannel im i v := by
  unfold storeChannel packChannel
  by_cases hl : i < im.length
  · simp [List.getD_eq_getElem?_getD, List.getElem?_set, hl]
  · have hl2 : im.length ≤ i := Nat.le_of_not_lt hl
    rw [List.set_eq_of_length_le hl2, List.set_eq_of_length_le hl2, List.set_eq_of_length_le hl2]

theorem components_cases (r : Nat) :
    components r ∈ [[0,1,2],[0,2,1],[1,2,0],[1,0,2],[2,0,1],[2,1,0]] := by
  unfold components
  have ha : (r >>> 3) % 3 < 3 := Nat.mod_lt _ (by decide)
  have ht : (r >>> 2 &&& 1) < 2 := Nat.lt_succ_of_le Nat.and_le_right
  generalize (r >>> 3) % 3 = a at ha
  generalize (r >>> 2 &&& 1) = t at ht
  interval_cases a <;> interval_cases t <;> decide

theorem writePixel_length (im : List Nat) (off m r : Nat) :
    (pngpeek_writePixel im off m r).length = im.length := by
  simp [pngpeek_writePixel, List.foldl]

/-- Byte `j` of the buffer after `pngpeek_writePixel`. -/
theorem writePixel_getD (im : List Nat) (off m r j : Nat) :
    (pngpeek_writePixel im off m r).getD j 0 =
      if off ≤ j ∧ j < off + 3 ∧ j < im.length then
        packChannel (im.getD j 0) (fieldOf (r % 3) (j - off) m)
      else im.getD j 0 := by
  have hc := components_cases r
  simp only [pngpeek_writePixel, List.foldl, store_twice]
  simp only [List.mem_cons, List.mem_singleton, List.not_mem_nil, or_false] at hc
  have hj : j = off ∨ j = off + 1 ∨ j = off + 2 ∨ (j ≠ off + 0 ∧ j ≠ off + 1 ∧ j ≠ off + 2 ∧
      ¬ (off ≤ j ∧ j < off + 3 ∧ j < im.length)) := by omega
  rcases hj with hj | hj | hj | ⟨h0, h1, h2, h3⟩
  · subst hj
    by_cases hl : j < im.length <;>
    rcases hc with h | h | h | h | h | h <;> rw [h] <;>
    simp only [List.getD_cons_zero, List.getD_cons_succ, storeChannel_getD, storeChannel_length,
      Nat.sub_self, Nat.sub_zero, Nat.reduceSub, fieldOf] <;>
    simp [hl]
  · subst hj
    by_cases hl : off + 1 < im.length <;>
    rcases hc with h | h | h | h | h | h <;> rw [h] <;>
    simp only [List.getD_cons_zero, List.getD_cons_succ, storeChannel_getD, storeChannel_length,
      Nat.sub_self, Nat.sub_zero, Nat.reduceSub, fieldOf] <;>
    simp [hl]
  · subst hj
    by_cases hl : off + 2 < im.length <;>
    rcases hc with h | h | h | h | h | h <;> rw [h] <;>
    simp only [List.getD_cons_zero, List.getD_cons_succ, storeChannel_getD, storeChannel_length,
      Nat.sub_self, Nat.sub_zero, Nat.reduceSub, fieldOf] <;>
    simp [hl]
  · rcases hc with h | h | h | h | h | h <;> rw [h] <;>
    simp only [List.getD_cons_zero, List.getD_cons_succ, storeChannel_getD, storeChannel_length,
      Nat.sub_self, Nat.sub_zero, Nat.reduceSub, fieldOf, h0, h1, h2, h3, false_and, if_false]

set_option maxRecDepth 100000 in
theorem pack_low_aux : ∀ y < 256, ∀ v < 8, ((y &&& 248) + v) % 256 &&& 7 = v := by
  decide

theorem packChannel_low (x v : Nat) (hv : v < 8) : packChannel x v &&& 7 = v := by
  unfold packChannel
  rw [and248_mod]
  exact pack_low_aux (x % 256) (Nat.mod_lt _ (by decide)) v hv

theorem fieldOf_lt (cS c m : Nat) : fieldOf cS c m < 8 := by
  unfold fieldOf
  by_cases h : cS = c
  · rw [if_pos h]
    exact Nat.lt_of_le_of_lt Nat.and_le_right (by decide)
  · rw [if_neg h]
    exact Nat.lt_of_le_of_lt Nat.and_le_right (by decide)

set_option maxRecDepth 100000 in
theorem field_sum : ∀ s < 3, ∀ m < 256,
    ((fieldOf s 0 m <<< pngpeek_getP s 0) + (fieldOf s 1 m <<< pngpeek_getP s 1)
      + (fieldOf s 2 m <<< pngpeek_getP s 2)) % 256 = m := by
  decide

/-- The byte `pngpeek_readPixel` returns, channel by channel. -/
theorem readPixel_eq (im : List Nat) (off r : Nat) :
    pngpeek_readPixel im off r =
      (((im.getD off 0 &&& 7) <<< pngpeek_getP (r % 3) 0)
        + ((im.getD (off + 1) 0 &&& 7) <<< pngpeek_getP (r % 3) 1)
        + ((im.getD (off + 2) 0 &&& 7) <<< pngpeek_getP (r % 3) 2)) % 256 := by
  have hc := components_cases r
  simp only [List.mem_cons, List.mem_singleton, List.not_mem_nil, or_false] at hc
  simp only [pngpeek_readPixel, List.foldl]
  generalize hA : ((im.getD off 0 &&& 7) <<< pngpeek_getP (r % 3) 0) = A
  generalize hB : ((im.getD (off + 1) 0 &&& 7) <<< pngpeek_getP (r % 3) 1) = B
  generalize hC : ((im.getD (off + 2) 0 &&& 7) <<< pngpeek_getP (r % 3) 2) = C
  rcases hc with h | h | h | h | h | h <;> rw [h] <;>
    simp only [List.getD_cons_zero, List.getD_cons_succ, Nat.sub_self, Nat.sub_zero,
      Nat.reduceSub, Nat.add_zero, hA, hB, hC] <;> omega

/-- Reading a pixel back with the control byte it was written with. -/
theorem readPixel_writePixel (im : List Nat) (off m r : Nat)
    (hoff : off + 3 ≤ im.length) (hm : m < 256) :
    pngpeek_readPixel (pngpeek_writePixel im off m r) off r = m := by
  rw [readPixel_eq]
  simp only [writePixel_getD]
  rw [if_pos (by omega), if_pos (by omega), if_pos (by omega)]
  simp only [Nat.sub_self, Nat.add_sub_cancel_left, packChannel_low _ _ (fieldOf_lt _ _ _)]
  exact field_sum (r % 3) (Nat.mod_lt _ (by decide)) m hm

/-! ## The encoder loop -/

theorem encodeLoop_eq (imSize : Nat) (inMsg : List Nat) :
    ∀ (j fuel state : Nat) (imData : List Nat) (k : Nat),
      k + j = inMsg.length → 32 + 4 * inMsg.length ≤ imSize → imSize < 2 ^ 32 → j < fuel →
      encodeLoop imSize inMsg fuel state imData (32 + 4 * k) k
        = Outcome.done (encodeSteps inMsg j state imData k) := by
  intro j
  induction j with
  | zero =>
    intro fuel state imData k hk _ _ hf
    obtain ⟨f, rfl⟩ : ∃ f, fuel = f + 1 := ⟨fuel - 1, by omega⟩
    have hk2 : ¬ (32 + 4 * k < imSize ∧ k < inMsg.length) := by omega
    simp only [encodeLoop, encodeSteps, if_neg hk2]
  | succ j ih =>
    intro fuel state imData k hk hcap hsz hf
    obtain ⟨f, rfl⟩ : ∃ f, fuel = f + 1 := ⟨fuel - 1, by omega⟩
    have hk2 : 32 + 4 * k < imSize ∧ k < inMsg.length := by omega
    have e1 : (32 + 4 * k + 4) % 2 ^ 32 = 32 + 4 * (k + 1) := by omega
    have e2 : (k + 1) % 2 ^ 32 = k + 1 := by omega
    simp only [encodeLoop, encodeSteps, if_pos hk2, e1, e2]
    exact ih f _ _ (k + 1) (by omega) hcap hsz (by omega)

theorem encodeSteps_state (inMsg : List Nat) :
    ∀ (j state : Nat) (imData : List Nat) (k : Nat),
      (encodeSteps inMsg j state imData k).state = stateAfter j state := by
  intro j
  induction j with
  | zero => intros; rfl
  | succ j ih => intro state imData k; simp only [encodeSteps, stateAfter]; exact ih _ _ _

theorem clearPixel0_length (im : List Nat) : (clearPixel0 im).length = im.length := by
  simp [clearPixel0]

theorem clearPixel0_getD (im : List Nat) (i : Nat) :
    (clearPixel0 im).getD i 0 = if i < 4 then im.getD i 0 &&& 248 else im.getD i 0 := by
  by_cases hl : i < im.length
  · have hi : i = 0 ∨ i = 1 ∨ i = 2 ∨ i = 3 ∨ 4 ≤ i := by omega
    rcases hi with h | h | h | h | h
    · subst h; simp [clearPixel0, List.getD_eq_getElem?_getD, List.getElem?_set, hl]
    · subst h; simp [clearPixel0, List.getD_eq_getElem?_getD, List.getElem?_set, hl]
    · subst h; simp [clearPixel0, List.getD_eq_getElem?_getD, List.getElem?_set, hl]
    · subst h; simp [clearPixel0, List.getD_eq_getElem?_getD, List.getElem?_set, hl]
    · have h0 : ¬ (0 = i) := by omega
      have h1 : ¬ (1 = i) := by omega
      have h2 : ¬ (2 = i) := by omega
      have h3 : ¬ (3 = i) := by omega
      have h4 : ¬ (i < 4) := by omega
      simp [clearPixel0, List.getD_eq_getElem?_getD, List.getElem?_set, h0, h1, h2, h3, h4]
  · have hl2 : im.length ≤ i := Nat.le_of_not_lt hl
    have e1 : (clearPixel0 im).getD i 0 = 0 := by
      rw [List.getD_eq_getElem?_getD, List.getElem?_eq_none (by rw [clearPixel0_length]; exact hl2)]
      rfl
    have e2 : im.getD i 0 = 0 := by
      rw [List.getD_eq_getElem?_getD, List.getElem?_eq_none hl2]; rfl
    rw [e1, e2]; simp

/-- The four bytes `lodepng_crc32` is run on are pixel 0 with its low bits cleared. -/
theorem clearPixel0_take (im : List Nat) (h : 4 ≤ im.length) :
    (clearPixel0 im).take 4 =
      [im.getD 0 0 &&& 248, im.getD 1 0 &&& 248, im.getD 2 0 &&& 248, im.getD 3 0 &&& 248] := by
  match im, h with
  | a :: b :: c :: d :: rest, _ => simp [clearPixel0]

theorem crc_clearPixel0 (im : List Nat) (h : 4 ≤ im.length) :
    lodepng_crc32 (clearPixel0 im) 4 =
      lodepng_crc32
        [im.getD 0 0 &&& 248, im.getD 1 0 &&& 248, im.getD 2 0 &&& 248, im.getD 3 0 &&& 248] 4 := by
  unfold lodepng_crc32
  rw [clearPixel0_take im h]
  rfl

theorem writeHeader_length (im : List Nat) (c n : Nat) :
    (writeHeader im c n).length = im.length := by
  simp [writeHeader, List.foldl, writePixel_length]

set_option maxRecDepth 100000 in
theorem pack_high_aux : ∀ y < 256, ∀ v < 8, ((y &&& 248) + v) % 256 &&& 248 = y &&& 248 := by
  decide

theorem packChannel_high (x v : Nat) (hv : v < 8) : packChannel x v &&& 248 = x &&& 248 := by
  unfold packChannel
  rw [and248_mod x]
  exact pack_high_aux (x % 256) (Nat.mod_lt _ (by decide)) v hv

/-- A write keeps the top five bits of every byte. -/
theorem writePixel_high (im : List Nat) (off m r j : Nat) :
    (pngpeek_writePixel im off m r).getD j 0 &&& 248 = im.getD j 0 &&& 248 := by
  rw [writePixel_getD]
  split
  · exact packChannel_high _ _ (fieldOf_lt _ _ _)
  · rfl

/-- A write changes no byte outside the three colour channels of its pixel. -/
theorem writePixel_getD_other (im : List Nat) (off m r j : Nat) (h : j < off ∨ off + 3 ≤ j) :
    (pngpeek_writePixel im off m r).getD j 0 = im.getD j 0 := by
  rw [writePixel_getD, if_neg (by omega)]

theorem writeHeader_high (im : List Nat) (c n j : Nat) :
    (writeHeader im c n).getD j 0 &&& 248 = im.getD j 0 &&& 248 := by
  simp only [writeHeader, List.foldl, writePixel_high]

theorem writeHeader_getD_other (im : List Nat) (c n j : Nat) (h : 32 ≤ j ∨ j % 4 = 3) :
    (writeHeader im c n).getD j 0 = im.getD j 0 := by
  simp only [writeHeader, List.foldl, Nat.reduceMul, Nat.reduceAdd]
  simp (disch := omega) only [writePixel_getD_other]

theorem readPixel_lt (im : List Nat) (off r : Nat) : pngpeek_readPixel im off r < 256 := by
  rw [readPixel_eq]
  exact Nat.mod_lt _ (by decide)

theorem crc_acc (acc v : Nat) :
    (((acc : Int) + wrapInt32 (v : Int)) % 2 ^ 32).toNat = (acc + v) % 2 ^ 32 := by
  unfold wrapInt32
  omega

theorem size_term (v : Nat) (hv : v < 2 ^ 32) :
    intToSizeT (wrapInt32 (v : Int)) = if v < 2 ^ 31 then v else v + (2 ^ 64 - 2 ^ 32) := by
  unfold wrapInt32 intToSizeT
  split <;> omega

theorem readHeader_eq (im : List Nat) :
    readHeader im =
      (pngpeek_readPixel im 0 0 + pngpeek_readPixel im 4 0 * 2 ^ 8
        + pngpeek_readPixel im 8 0 * 2 ^ 16 + pngpeek_readPixel im 12 0 * 2 ^ 24,
       declaredSize (pngpeek_readPixel im 16 0) (pngpeek_readPixel im 20 0)
        (pngpeek_readPixel im 24 0) (pngpeek_readPixel im 28 0)) := by
  have h0 := readPixel_lt im 0 0
  have h1 := readPixel_lt im 4 0
  have h2 := readPixel_lt im 8 0
  have h3 := readPixel_lt im 12 0
  have h4 := readPixel_lt im 16 0
  have h5 := readPixel_lt im 20 0
  have h6 := readPixel_lt im 24 0
  have h7 := readPixel_lt im 28 0
  simp only [readHeader, List.foldl, Nat.reduceMul, Nat.reduceAdd, Nat.shiftLeft_eq,
    declaredSize]
  generalize pngpeek_readPixel im 0 0 = b0 at *
  generalize pngpeek_readPixel im 4 0 = b1 at *
  generalize pngpeek_readPixel im 8 0 = b2 at *
  generalize pngpeek_readPixel im 12 0 = b3 at *
  generalize pngpeek_readPixel im 16 0 = b4 at *
  generalize pngpeek_readPixel im 20 0 = b5 at *
  generalize pngpeek_readPixel im 24 0 = b6 at *
  generalize pngpeek_readPixel im 28 0 = b7 at *
  rw [crc_acc, crc_acc, crc_acc, crc_acc, size_term _ (by omega), size_term _ (by omega),
    size_term _ (by omega), size_term _ (by omega)]
  apply Prod.ext
  · simp only; omega
  · simp only; split <;> split <;> split <;> split <;> split <;> omega

/-! ## The decoder loop -/

theorem decodeLoop_ne_exit (imData : List Nat) (inSize : Nat) (err : PngpeekError) :
    ∀ (fuel state : Nat) (outMsg : List Nat) (p d : Nat),
      decodeLoop imData inSize fuel state outMsg p d ≠ Outcome.exit err := by
  intro fuel
  induction fuel with
  | zero => intro _ _ _ _ h; simp [decodeLoop] at h
  | succ f ih =>
    intro state outMsg p d
    simp only [decodeLoop]
    split
    · exact ih _ _ _ _
    · intro h; cases h

/-- The decoder loop never writes the pixel buffer. -/
theorem decodeLoop_imData (imData : List Nat) (inSize : Nat) :
    ∀ (fuel state : Nat) (outMsg : List Nat) (p d : Nat) (r : Decoded),
      decodeLoop imData inSize fuel state outMsg p d = Outcome.done r →
      r.imData = imData ∧ r.outSize = inSize ∧ r.outMsg.length = outMsg.length := by
  intro fuel
  induction fuel with
  | zero => intro _ _ _ _ _ h; simp [decodeLoop] at h
  | succ f ih =>
    intro state outMsg p d r
    simp only [decodeLoop]
    split
    · intro h
      have := ih _ _ _ _ _ h
      simpa using this
    · intro h
      cases h
      exact ⟨rfl, rfl, rfl⟩

theorem encodeImage_done (fuel state : Nat) (imData inMsg : List Nat)
    (hcap : 32 + 4 * inMsg.length ≤ imData.length) (hsz : imData.length < 2 ^ 32)
    (hf : inMsg.length < fuel) :
    pngpeek_encodeImage fuel state imData inMsg =
      Outcome.done ⟨stateAfter inMsg.length (pngpeek_seed (headerCrc imData + CRC_SEED_SHIFT)),
        encodedBuffer imData inMsg⟩ := by
  have hc : ¬ (imData.length < PNGPEEK_HEADER_SIZE + inMsg.length * 4) := by
    simp only [PNGPEEK_HEADER_SIZE]; omega
  simp only [pngpeek_encodeImage, if_neg hc]
  have h := encodeLoop_eq imData.length inMsg inMsg.length fuel
    (pngpeek_seed (headerCrc imData + CRC_SEED_SHIFT))
    (writeHeader (clearPixel0 imData) (headerCrc imData) inMsg.length) 0
    (by omega) hcap hsz hf
  simp only [Nat.mul_zero, Nat.add_zero] at h
  simp only [PNGPEEK_HEADER_SIZE, headerCrc] at h ⊢
  rw [h]
  congr 1
  unfold encodedBuffer headerCrc
  rw [← encodeSteps_state inMsg]

theorem and248_idem (x : Nat) : x &&& 248 &&& 248 = x &&& 248 := by
  rw [Nat.and_assoc, Nat.and_self]

theorem crc32Bit_lt (c : Nat) (h : c < 2 ^ 32) : crc32Bit c < 2 ^ 32 := by
  unfold crc32Bit
  have h1 : c >>> 1 < 2 ^ 32 := by
    rw [Nat.shiftRight_eq_div_pow]
    exact Nat.lt_of_le_of_lt (Nat.div_le_self _ _) h
  split
  · exact Nat.xor_lt_two_pow h1 (by decide)
  · exact h1

theorem crc32Byte_lt (c b : Nat) (hc : c < 2 ^ 32) (hb : b < 2 ^ 32) : crc32Byte c b < 2 ^ 32 := by
  unfold crc32Byte
  have h0 : c ^^^ b < 2 ^ 32 := Nat.xor_lt_two_pow hc hb
  exact crc32Bit_lt _ (crc32Bit_lt _ (crc32Bit_lt _ (crc32Bit_lt _ (crc32Bit_lt _
    (crc32Bit_lt _ (crc32Bit_lt _ (crc32Bit_lt _ h0)))))))

theorem and248_lt (x : Nat) : x &&& 248 < 2 ^ 32 :=
  Nat.lt_of_le_of_lt Nat.and_le_right (by decide)

theorem headerCrc_eq (im : List Nat) (h : 4 ≤ im.length) :
    headerCrc im = crcReg 0xFFFFFFFF (im.getD 0 0 &&& 248) (im.getD 1 0 &&& 248)
      (im.getD 2 0 &&& 248) (im.getD 3 0 &&& 248) ^^^ 0xFFFFFFFF := by
  unfold headerCrc
  rw [crc_clearPixel0 im h]
  have hlt : crcReg 0xFFFFFFFF (im.getD 0 0 &&& 248) (im.getD 1 0 &&& 248)
      (im.getD 2 0 &&& 248) (im.getD 3 0 &&& 248) ^^^ 0xFFFFFFFF < 2 ^ 32 := by
    apply Nat.xor_lt_two_pow _ (by decide)
    unfold crcReg
    exact crc32Byte_lt _ _ (crc32Byte_lt _ _ (crc32Byte_lt _ _ (crc32Byte_lt _ _ (by decide)
      (and248_lt _)) (and248_lt _)) (and248_lt _)) (and248_lt _)
  have e : lodepng_crc32 [im.getD 0 0 &&& 248, im.getD 1 0 &&& 248, im.getD 2 0 &&& 248,
      im.getD 3 0 &&& 248] 4 = crcReg 0xFFFFFFFF (im.getD 0 0 &&& 248) (im.getD 1 0 &&& 248)
      (im.getD 2 0 &&& 248) (im.getD 3 0 &&& 248) ^^^ 0xFFFFFFFF := rfl
  rw [e, Nat.mod_eq_of_lt hlt]

/-- Whatever the encoder loop returns differs from the buffer it started on
only in the low three bits of colour bytes below `32 + 4 * inMsg.length`. -/
theorem encodeLoop_frame (imSize : Nat) (inMsg : List Nat) :
    ∀ (fuel state : Nat) (imData : List Nat) (p d : Nat) (e : Encoded),
      (p ≤ 32 + 4 * d ∨ 2 ^ 32 ≤ 32 + 4 * inMsg.length) → p < 2 ^ 32 → p % 4 = 0 →
      encodeLoop imSize inMsg fuel state imData p d = Outcome.done e →
      e.imData.length = imData.length ∧
      (∀ i, e.imData.getD i 0 &&& 248 = imData.getD i 0 &&& 248) ∧
      (∀ i, i % 4 = 3 ∨ 32 + 4 * inMsg.length ≤ i → e.imData.getD i 0 = imData.getD i 0) := by
  intro fuel
  induction fuel with
  | zero => intro _ _ _ _ _ _ _ _ h; simp [encodeLoop] at h
  | succ f ih =>
    intro state imData p d e hinv hp hp4
    simp only [encodeLoop]
    split
    · rename_i hcond
      intro h
      have hstep := ih _ _ _ _ e
        (by omega : (p + 4) % 2 ^ 32 ≤ 32 + 4 * ((d + 1) % 2 ^ 32) ∨
          2 ^ 32 ≤ 32 + 4 * inMsg.length)
        (Nat.mod_lt _ (by decide)) (by omega) h
      obtain ⟨h1, h2, h3⟩ := hstep
      refine ⟨by rw [h1, writePixel_length], ?_, ?_⟩
      · intro i; rw [h2 i, writePixel_high]
      · intro i hi
        rw [h3 i hi, writePixel_getD_other _ _ _ _ _ (by omega)]
    · intro h
      cases h
      exact ⟨rfl, fun _ => rfl, fun _ _ => rfl⟩

/-- What `pngpeek_encodeImage` returns differs from its input only in the low
three bits of bytes below `32 + 4 * inMsg.length`, alpha bytes of pixels after
pixel 0 excepted. -/
theorem encodeImage_frame (fuel state : Nat) (imData inMsg : List Nat) (e : Encoded)
    (h : pngpeek_encodeImage fuel state imData inMsg = Outcome.done e) :
    e.imData.length = imData.length ∧
    (∀ i, e.imData.getD i 0 &&& 248 = imData.getD i 0 &&& 248) ∧
    (∀ i, 32 + 4 * inMsg.length ≤ i → e.imData.getD i 0 = imData.getD i 0) ∧
    (∀ k, 1 ≤ k → e.imData.getD (4 * k + 3) 0 = imData.getD (4 * k + 3) 0) := by
  unfold pngpeek_encodeImage at h
  simp only at h
  split at h
  · cases h
  · obtain ⟨h1, h2, h3⟩ := encodeLoop_frame _ _ _ _ _ _ _ e (Or.inl (by
      simp only [PNGPEEK_HEADER_SIZE]; omega)) (by simp only [PNGPEEK_HEADER_SIZE]; omega)
      (by simp only [PNGPEEK_HEADER_SIZE]) h
    refine ⟨by rw [h1, writeHeader_length, clearPixel0_length], ?_, ?_, ?_⟩
    · intro i
      rw [h2 i, writeHeader_high, clearPixel0_getD]
      split
      · exact and248_idem _
      · rfl
    · intro i hi
      rw [h3 i (Or.inr hi), writeHeader_getD_other _ _ _ _ (by omega), clearPixel0_getD,
        if_neg (by omega)]
    · intro k hk
      rw [h3 _ (Or.inl (by omega)), writeHeader_getD_other _ _ _ _ (by omega), clearPixel0_getD,
        if_neg (by omega)]

/-! ## The two carriers used as examples -/

/-- The buffer `encodedCarrier` is what the encoder makes of 16 zero pixels and `[0x42]`. -/
theorem encodedCarrier_eq :
    pngpeek_encodeImage 2 0x951EE51C (List.replicate 64 0) [0x42]
      = Outcome.done ⟨3997649839, encodedCarrier⟩ := by
  decide

/-- The buffer `shortCarrier` is the first nine pixels of `encodedCarrier` with the
declared size raised from 1 to 2. -/
theorem shortCarrier_eq : shortCarrier = (encodedCarrier.take 36).set 18 2 := by
  decide

/-! ## The keystream as an iterate -/

theorem components_shift (r r2 : Nat) (h : r >>> 2 = r2 >>> 2) : components r = components r2 := by
  have h3 : ∀ x : Nat, x >>> 3 = (x >>> 2) >>> 1 := by
    intro x
    simp only [Nat.shiftRight_eq_div_pow]
    omega
  unfold components
  rw [h3 r, h3 r2, h]

theorem list_ext_getD (A B : List Nat) (hl : A.length = B.length)
    (h : ∀ i, A.getD i 0 = B.getD i 0) : A = B := by
  apply List.ext_getElem hl
  intro i h1 h2
  have hi := h i
  rw [List.getD_eq_getElem?_getD, List.getD_eq_getElem?_getD, List.getElem?_eq_getElem h1,
    List.getElem?_eq_getElem h2] at hi
  exact hi

theorem writePixel_mod3 (im : List Nat) (off m r r2 : Nat) (h : r % 3 = r2 % 3) :
    pngpeek_writePixel im off m r = pngpeek_writePixel im off m r2 := by
  apply list_ext_getD
  · rw [writePixel_length, writePixel_length]
  · intro i
    rw [writePixel_getD, writePixel_getD, h]

theorem readPixel_mod3 (im : List Nat) (off r r2 : Nat) (h : r % 3 = r2 % 3) :
    pngpeek_readPixel im off r = pngpeek_readPixel im off r2 := by
  rw [readPixel_eq, readPixel_eq, h]

/-! ## Encoding twice -/

/-- C2. Pixel round trip: for every control byte `r`, payload byte `m` and
pixel `(R, G, B, A)`, reading the pixel written by
`pngpeek_writePixel` with the same control byte gives `m` back. -/
theorem pixel_round_trip (R G B A m r : Nat) (hm : m < 256) :
    pngpeek_readPixel (pngpeek_writePixel [R, G, B, A] 0 m r) 0 r = m :=
  readPixel_writePixel [R, G, B, A] 0 m r (by simp) hm

/-- C2, witness: the byte `0xA5` under control byte `0x1D`. -/
theorem pixel_round_trip_witness :
    0xA5 < 256 ∧
    pngpeek_readPixel (pngpeek_writePixel [200, 17, 255, 9] 0 0xA5 0x1D) 0 0x1D = 0xA5 :=
  ⟨by decide, pixel_round_trip 200 17 255 9 0xA5 0x1D (by decide)⟩

/-- C6. Decode rejection: `pngpeek_decodeImage` exits on every buffer shorter
than 32 bytes, and on every buffer of at least 32 bytes in which the checksum
read from pixels 0 to 3 (control byte 0, little-endian) differs from the
CRC-32 of pixel 0's four bytes with the low three bits of each cleared; an
exit returns no payload. -/
theorem decode_rejection (fuel state : Nat) (imData : List Nat) :
    (imData.length < 32 →
      pngpeek_decodeImage fuel state imData = Outcome.exit PngpeekError.BufferTooSmall) ∧
    (32 ≤ imData.length →
      pngpeek_readPixel imData 0 0 + pngpeek_readPixel imData 4 0 * 2 ^ 8
        + pngpeek_readPixel imData 8 0 * 2 ^ 16 + pngpeek_readPixel imData 12 0 * 2 ^ 24
        ≠ lodepng_crc32 [imData.getD 0 0 &&& 248, imData.getD 1 0 &&& 248,
            imData.getD 2 0 &&& 248, imData.getD 3 0 &&& 248] 4 →
      pngpeek_decodeImage fuel state imData = Outcome.exit PngpeekError.ChecksumMismatch) := by
  constructor
  · intro h
    have hc : imData.length < PNGPEEK_HEADER_SIZE := h
    simp only [pngpeek_decodeImage, if_pos hc]
  · intro h hne
    have hc : ¬ (imData.length < PNGPEEK_HEADER_SIZE) := by
      simp only [PNGPEEK_HEADER_SIZE]; omega
    have hmis : lodepng_crc32 (clearPixel0 imData) 4 % 2 ^ 32 ≠ (readHeader imData).1 := by
      have e1 : lodepng_crc32 (clearPixel0 imData) 4 % 2 ^ 32 = headerCrc imData := rfl
      have e2 : lodepng_crc32 [imData.getD 0 0 &&& 248, imData.getD 1 0 &&& 248,
          imData.getD 2 0 &&& 248, imData.getD 3 0 &&& 248] 4 = headerCrc imData := by
        rw [headerCrc_eq imData (by omega)]; rfl
      rw [e1, readHeader_eq, ← e2]
      exact fun hh => hne hh.symm
    simp only [pngpeek_decodeImage, if_neg hc, if_pos hmis]

/-- C6, witness: a 31-byte buffer, and 32 zero bytes (stored checksum 0). -/
theorem decode_rejection_witness :
    pngpeek_decodeImage 1 0 (List.replicate 31 0) = Outcome.exit PngpeekError.BufferTooSmall ∧
    pngpeek_decodeImage 1 0 (List.replicate 32 0) = Outcome.exit PngpeekError.ChecksumMismatch :=
  ⟨(decode_rejection 1 0 (List.replicate 31 0)).1 (by decide),
    (decode_rejection 1 0 (List.replicate 32 0)).2 (by decide) (by decide)⟩

/-- C8. Encode frame: whenever `pngpeek_encodeImage` returns, it has kept the
size of the buffer and the high five bits (`& 0xF8`) of every byte, and has left
unchanged every byte at index `≥ 32 + 4 * len(payload)` and the alpha byte
(index `4 * k + 3`) of every pixel `k ≥ 1`; so only the low three bits of the
R, G, B bytes of pixels `0 .. 7 + len(payload)` and of pixel 0's alpha byte can
change.  It does return under the capacity condition, for a buffer of fewer
than `2 ^ 32` bytes. -/
theorem encode_frame (fuel state : Nat) (imData inMsg : List Nat) :
    (∀ e, pngpeek_encodeImage fuel state imData inMsg = Outcome.done e →
      e.imData.length = imData.length ∧
      (∀ i, e.imData.getD i 0 &&& 0xF8 = imData.getD i 0 &&& 0xF8) ∧
      (∀ i, 32 + 4 * inMsg.length ≤ i → e.imData.getD i 0 = imData.getD i 0) ∧
      (∀ k, 1 ≤ k → e.imData.getD (4 * k + 3) 0 = imData.getD (4 * k + 3) 0)) ∧
    (32 + 4 * inMsg.length ≤ imData.length → imData.length < 2 ^ 32 → inMsg.length < fuel →
      ∃ e, pngpeek_encodeImage fuel state imData inMsg = Outcome.done e) :=
  ⟨fun e h => encodeImage_frame fuel state imData inMsg e h,
    fun hcap hsz hf => ⟨_, encodeImage_done fuel state imData inMsg hcap hsz hf⟩⟩

/-- C8, witness: a 64-byte buffer of bytes `0xFF` and the payload `[0x42]`. -/
theorem encode_frame_witness :
    ∃ e, pngpeek_encodeImage 2 0 (List.replicate 64 0xFF) [0x42] = Outcome.done e ∧
      e.imData.length = (List.replicate 64 0xFF).length ∧
      (∀ i, e.imData.getD i 0 &&& 0xF8 = (List.replicate 64 0xFF).getD i 0 &&& 0xF8) ∧
      (∀ i, 32 + 4 * [0x42].length ≤ i →
        e.imData.getD i 0 = (List.replicate 64 0xFF).getD i 0) ∧
      (∀ k, 1 ≤ k → e.imData.getD (4 * k + 3) 0 = (List.replicate 64 0xFF).getD (4 * k + 3) 0) :=
  match (encode_frame 2 0 (List.replicate 64 0xFF) [0x42]).2 (by decide) (by decide)
      (by decide) with
  | ⟨e, he⟩ => ⟨e, he, (encode_frame 2 0 (List.replicate 64 0xFF) [0x42]).1 e he⟩

/-- C9, counterexample: `pngpeek_decodeImage` succeeds on `encodedCarrier` and
leaves bytes 1 and 2 of the buffer changed from 3 and 4 to 0. -/
theorem decode_only_reads_counterexample :
    32 ≤ encodedCarrier.length ∧
    ∃ d, pngpeek_decodeImage 2 0x951EE51C encodedCarrier = Outcome.done d ∧
      d.outMsg = [0x42] ∧ encodedCarrier.getD 1 0 = 3 ∧ d.imData.getD 1 0 = 0 ∧
      encodedCarrier.getD 2 0 = 4 ∧ d.imData.getD 2 0 = 0 :=
  ⟨by decide, ⟨3997649839, clearPixel0 encodedCarrier, [0x42], 1⟩, by decide, by decide,
    by decide, by decide, by decide, by decide⟩

/-- C9, amended. When `pngpeek_decodeImage` succeeds, the buffer keeps its size,
every byte at index 4 or more equals its value before the call, and each of
the four bytes of pixel 0 equals its value before the call with the low three
bits cleared. -/
theorem decode_clears_pixel0 (fuel state : Nat) (imData : List Nat) (d : Decoded)
    (h : pngpeek_decodeImage fuel state imData = Outcome.done d) :
    d.imData.length = imData.length ∧
    (∀ i, 4 ≤ i → d.imData.getD i 0 = imData.getD i 0) ∧
    (∀ i, i < 4 → d.imData.getD i 0 = imData.getD i 0 &&& 0xF8) := by
  have him : d.imData = clearPixel0 imData := by
    unfold pngpeek_decodeImage at h
    simp only at h
    split at h
    · cases h
    · split at h
      · cases h
      · exact (decodeLoop_imData _ _ _ _ _ _ _ _ h).1
  rw [him]
  refine ⟨clearPixel0_length imData, ?_, ?_⟩
  · intro i hi
    rw [clearPixel0_getD, if_neg (by omega)]
  · intro i hi
    rw [clearPixel0_getD, if_pos hi]

/-- C9, witness of the amended statement: `encodedCarrier`. -/
theorem decode_clears_pixel0_witness :
    (clearPixel0 encodedCarrier).length = encodedCarrier.length ∧
    (∀ i, 4 ≤ i → (clearPixel0 encodedCarrier).getD i 0 = encodedCarrier.getD i 0) ∧
    (∀ i, i < 4 → (clearPixel0 encodedCarrier).getD i 0 = encodedCarrier.getD i 0 &&& 0xF8) :=
  decode_clears_pixel0 2 0x951EE51C encodedCarrier
    ⟨3997649839, clearPixel0 encodedCarrier, [0x42], 1⟩ (by decide)

/-- C10. Encode determinism: two runs of `pngpeek_encodeImage` on the same
buffer and payload end the same way and, when they return, with the same
output bytes, whatever keystream words `state1` and `state2` they start from;
under the capacity condition, for a buffer of fewer than `2 ^ 32` bytes, they
do return. -/
theorem encode_deterministic (fuel state1 state2 : Nat) (imData inMsg : List Nat) :
    pngpeek_encodeImage fuel state1 imData inMsg = pngpeek_encodeImage fuel state2 imData inMsg ∧
    (32 + 4 * inMsg.length ≤ imData.length → imData.length < 2 ^ 32 → inMsg.length < fuel →
      ∃ e, pngpeek_encodeImage fuel state1 imData inMsg = Outcome.done e ∧
        pngpeek_encodeImage fuel state2 imData inMsg = Outcome.done e) :=
  ⟨rfl, fun hcap hsz hf => ⟨_, encodeImage_done fuel state1 imData inMsg hcap hsz hf,
    encodeImage_done fuel state2 imData inMsg hcap hsz hf⟩⟩

/-- C10, witness: the initial keystream word and the word 0. -/
theorem encode_deterministic_witness :
    ∃ e, pngpeek_encodeImage 2 0x951EE51C (List.replicate 64 0) [0x42] = Outcome.done e ∧
      pngpeek_encodeImage 2 0 (List.replicate 64 0) [0x42] = Outcome.done e :=
  (encode_deterministic 2 0x951EE51C 0 (List.replicate 64 0) [0x42]).2
    (by decide) (by decide) (by decide)

/-- C12. Pack postcondition: after `pngpeek_writePixel` on a pixel
`(R, G, B, A)` with control byte `r` and payload byte `m`, each colour channel
`ch` has low three bits `(m >> pngpeek_getP (r % 3) ch)` masked to 2 bits when
`ch = r % 3` and to 3 bits otherwise; bit 2 of the channel `r % 3` is 0. -/
theorem pack_postcondition (R G B A m r : Nat) :
    (∀ ch, ch < 3 →
      (pngpeek_writePixel [R, G, B, A] 0 m r).getD ch 0 &&& 7 =
        (m >>> pngpeek_getP (r % 3) ch) &&& (if ch = r % 3 then 3 else 7)) ∧
    (pngpeek_writePixel [R, G, B, A] 0 m r).getD (r % 3) 0 &&& 4 = 0 := by
  have hch : ∀ ch, ch < 3 →
      (pngpeek_writePixel [R, G, B, A] 0 m r).getD ch 0 &&& 7 = fieldOf (r % 3) ch m := by
    intro ch hc
    rw [writePixel_getD, if_pos ⟨Nat.zero_le _, by omega, by simp; omega⟩, Nat.sub_zero]
    exact packChannel_low _ _ (fieldOf_lt _ _ _)
  constructor
  · intro ch hc
    rw [hch ch hc]
    unfold fieldOf
    by_cases h : r % 3 = ch
    · rw [if_pos h, if_pos h.symm]
    · rw [if_neg h, if_neg (fun hh => h hh.symm)]
  · have h3 : r % 3 < 3 := Nat.mod_lt _ (by decide)
    have h7 := hch (r % 3) h3
    have h4 : (pngpeek_writePixel [R, G, B, A] 0 m r).getD (r % 3) 0 &&& 4
        = ((pngpeek_writePixel [R, G, B, A] 0 m r).getD (r % 3) 0 &&& 7) &&& 4 := by
      rw [Nat.and_assoc]
      rfl
    rw [h4, h7]
    unfold fieldOf
    rw [if_pos rfl, Nat.and_assoc]
    exact Nat.and_zero _

/-- C12, witness: the byte `0xFF` under control byte `0x1D` (`r % 3 = 2`). -/
theorem pack_postcondition_witness :
    (pngpeek_writePixel [200, 17, 255, 9] 0 0xFF 0x1D).getD 2 0 &&& 7 =
        (0xFF >>> pngpeek_getP (0x1D % 3) 2) &&& (if 2 = 0x1D % 3 then 3 else 7) ∧
    (pngpeek_writePixel [200, 17, 255, 9] 0 0xFF 0x1D).getD (0x1D % 3) 0 &&& 4 = 0 :=
  ⟨(pack_postcondition 200 17 255 9 0xFF 0x1D).1 2 (by decide),
    (pack_postcondition 200 17 255 9 0xFF 0x1D).2⟩

/-- C13. Bit-position table: `pngpeek_getP` returns the offsets of the table
(special 0: R 6, G 3, B 0; special 1: R 3, G 6, B 0; special 2: R 0, G 5, B 3),
and for each special channel the three ranges
`[offset ch, offset ch + width ch)`, of width 2 for the special channel and 3
for the others, lie within bits 0 to 7 and every bit 0 to 7 is in exactly one
of them. -/
theorem bit_position_table :
    (pngpeek_getP 0 0 = 6 ∧ pngpeek_getP 0 1 = 3 ∧ pngpeek_getP 0 2 = 0) ∧
    (pngpeek_getP 1 0 = 3 ∧ pngpeek_getP 1 1 = 6 ∧ pngpeek_getP 1 2 = 0) ∧
    (pngpeek_getP 2 0 = 0 ∧ pngpeek_getP 2 1 = 5 ∧ pngpeek_getP 2 2 = 3) ∧
    (∀ s < 3, ∀ ch < 3, pngpeek_getP s ch + (if ch = s then 2 else 3) ≤ 8) ∧
    (∀ s < 3, ∀ bit < 8, ∃ ch < 3,
      (pngpeek_getP s ch ≤ bit ∧ bit < pngpeek_getP s ch + (if ch = s then 2 else 3)) ∧
      ∀ ch2 < 3,
        (pngpeek_getP s ch2 ≤ bit ∧ bit < pngpeek_getP s ch2 + (if ch2 = s then 2 else 3)) →
        ch2 = ch) := by
  decide

/-- C13, witness: with special channel 2, bit 4 lies in the field of channel 2 (B) only. -/
theorem bit_position_table_witness :
    ∃ ch < 3,
      (pngpeek_getP 2 ch ≤ 4 ∧ 4 < pngpeek_getP 2 ch + (if ch = 2 then 2 else 3)) ∧
      ∀ ch2 < 3,
        (pngpeek_getP 2 ch2 ≤ 4 ∧ 4 < pngpeek_getP 2 ch2 + (if ch2 = 2 then 2 else 3)) →
        ch2 = ch :=
  bit_position_table.2.2.2.2 2 (by decide) 4 (by decide)

/-- C14. Channel order is a permutation: for every control byte `r`, with
`a = (r >> 3) % 3` and `b = (a + ((r >> 2) & 1) + 1) % 3`, the array
`components` is `[a, b, 3 - a - b]` with `a + b ≤ 3` (the difference does not
underflow), it is a permutation of `[0, 1, 2]`, and every entry
`components[2 - i]` used as a channel index is below 3. -/
theorem components_permutation (r : Nat) :
    components r = [(r >>> 3) % 3, ((r >>> 3) % 3 + (r >>> 2 &&& 1) + 1) % 3,
      3 - (r >>> 3) % 3 - ((r >>> 3) % 3 + (r >>> 2 &&& 1) + 1) % 3] ∧
    (r >>> 3) % 3 + ((r >>> 3) % 3 + (r >>> 2 &&& 1) + 1) % 3 ≤ 3 ∧
    List.Perm (components r) [0, 1, 2] ∧
    (∀ i, i < 3 → (components r).getD (2 - i) 0 < 3) := by
  unfold components
  have ha : (r >>> 3) % 3 < 3 := Nat.mod_lt _ (by decide)
  have ht : (r >>> 2 &&& 1) < 2 := Nat.lt_succ_of_le Nat.and_le_right
  generalize (r >>> 3) % 3 = a at ha
  generalize (r >>> 2 &&& 1) = t at ht
  interval_cases a <;> interval_cases t <;> decide

/-- C14, witness: control byte `0x1D` gives the order `[0, 2, 1]`. -/
theorem components_permutation_witness :
    components 0x1D = [0, 2, 1] ∧ (components 0x1D).getD (2 - 0) 0 < 3 :=
  ⟨by decide, (components_permutation 0x1D).2.2.2 0 (by decide)⟩

set_option maxRecDepth 100000 in
/-- C15, counterexample: the order `[0, 1, 2]` is chosen by 44 control bytes and
the order `[2, 0, 1]` by 40; and the control bytes 0 and 32 agree on bits 2 to 4
but give different orders. -/
theorem uniform_permutation_counterexample :
    permCount [0, 1, 2] = 44 ∧ permCount [2, 0, 1] = 40 ∧
    (0 >>> 2) &&& 7 = (32 >>> 2) &&& 7 ∧ components 0 = [0, 1, 2] ∧
    components 32 = [1, 2, 0] := by
  decide

set_option maxRecDepth 100000 in
/-- C15, amended. Over the 256 control bytes each of the four orders with
`a = 0` or `a = 1` is chosen by 44 bytes and each of the two orders with
`a = 2` by 40 bytes, every byte giving one of the six; and the order depends
only on bits 2 to 7 of `r`, that is on `r >> 2`. -/
theorem permutation_counts (r r2 : Nat) :
    (permCount [0, 1, 2] = 44 ∧ permCount [0, 2, 1] = 44 ∧ permCount [1, 2, 0] = 44 ∧
      permCount [1, 0, 2] = 44 ∧ permCount [2, 0, 1] = 40 ∧ permCount [2, 1, 0] = 40) ∧
    (r >>> 2 = r2 >>> 2 → components r = components r2) :=
  ⟨by decide, components_shift r r2⟩

/-- C15, witness of the amended statement: the control bytes `0x1D` and `0x1E`. -/
theorem permutation_counts_witness : components 0x1D = components 0x1E :=
  (permutation_counts 0x1D 0x1E).2 (by decide)

/-- C16, counterexample: for control byte 0 the order is `a = 0`, `c = 2`, yet
writing `0x81` puts the top field (value 2, bits 6 to 7) into channel 0 and
the bottom field (value 1, bits 0 to 2) into channel 2. -/
theorem permutation_placement_counterexample :
    (components 0).getD 0 0 = 0 ∧ (components 0).getD 2 0 = 2 ∧
    pngpeek_getP (0 % 3) 0 = 6 ∧ pngpeek_getP (0 % 3) 2 = 0 ∧
    pngpeek_writePixel [0, 0, 0, 0] 0 0x81 0 = [2, 0, 1, 0] := by
  decide

/-- C16, amended. For every control byte `r`, with `s = r % 3`, in the pixel
written by `pngpeek_writePixel` the field starting at bit 0 is held by channel
`lowChannel s` (B for `s = 0` or `1`, R for `s = 2`) and the field ending at
bit 7 by channel `highChannel s` (R for `s = 0`, G for `s = 1` or `2`): the
placement follows `pngpeek_getP` and `r % 3`, not the order `(a, b, c)`. -/
theorem placement_by_special (R G B A m r : Nat) :
    pngpeek_getP (r % 3) (lowChannel (r % 3)) = 0 ∧
    pngpeek_getP (r % 3) (highChannel (r % 3))
      + (if highChannel (r % 3) = r % 3 then 2 else 3) = 8 ∧
    (pngpeek_writePixel [R, G, B, A] 0 m r).getD (lowChannel (r % 3)) 0 &&& 7 =
      (m >>> 0) &&& (if lowChannel (r % 3) = r % 3 then 3 else 7) ∧
    (pngpeek_writePixel [R, G, B, A] 0 m r).getD (highChannel (r % 3)) 0 &&& 7 =
      (m >>> (8 - (if highChannel (r % 3) = r % 3 then 2 else 3)))
        &&& (if highChannel (r % 3) = r % 3 then 3 else 7) := by
  have hch : ∀ ch, ch < 3 →
      (pngpeek_writePixel [R, G, B, A] 0 m r).getD ch 0 &&& 7 = fieldOf (r % 3) ch m := by
    intro ch hc
    rw [writePixel_getD, if_pos ⟨Nat.zero_le _, by omega, by simp; omega⟩, Nat.sub_zero]
    exact packChannel_low _ _ (fieldOf_lt _ _ _)
  have h3 : r % 3 < 3 := Nat.mod_lt _ (by decide)
  generalize r % 3 = s at h3 hch
  interval_cases s
  · exact ⟨by decide, by decide, hch 2 (by decide), hch 0 (by decide)⟩
  · exact ⟨by decide, by decide, hch 2 (by decide), hch 1 (by decide)⟩
  · exact ⟨by decide, by decide, hch 0 (by decide), hch 1 (by decide)⟩

/-- C17. The pixel codec depends on the control byte only through `r % 3`:
control bytes with the same remainder write the same pixel and read the same
byte, for every buffer, pixel offset and payload byte; so every layout is one
of the three of the control bytes 0, 1 and 2. -/
theorem codec_depends_on_mod3 (imData : List Nat) (pixelPtr m r r2 : Nat) :
    (r % 3 = r2 % 3 →
      pngpeek_writePixel imData pixelPtr m r = pngpeek_writePixel imData pixelPtr m r2 ∧
      pngpeek_readPixel imData pixelPtr r = pngpeek_readPixel imData pixelPtr r2) ∧
    pngpeek_writePixel imData pixelPtr m r = pngpeek_writePixel imData pixelPtr m (r % 3) ∧
    pngpeek_readPixel imData pixelPtr r = pngpeek_readPixel imData pixelPtr (r % 3) :=
  ⟨fun h => ⟨writePixel_mod3 imData pixelPtr m r r2 h, readPixel_mod3 imData pixelPtr r r2 h⟩,
    writePixel_mod3 imData pixelPtr m r (r % 3) (Nat.mod_mod _ _).symm,
    readPixel_mod3 imData pixelPtr r (r % 3) (Nat.mod_mod _ _).symm⟩

/-- C17, witness: the control bytes `0x1D` and `0xE0`, whose channel orders differ. -/
theorem codec_depends_on_mod3_witness :
    components 0x1D ≠ components 0xE0 ∧
    pngpeek_writePixel [200, 17, 255, 9] 0 0xA5 0x1D
      = pngpeek_writePixel [200, 17, 255, 9] 0 0xA5 0xE0 ∧
    pngpeek_readPixel [200, 17, 255, 9] 0 0x1D = pngpeek_readPixel [200, 17, 255, 9] 0 0xE0 :=
  ⟨by decide, (codec_depends_on_mod3 [200, 17, 255, 9] 0 0xA5 0x1D 0xE0).1 (by decide)⟩

end Pngpeek
